import Mathlib

/-!
Verification of the test-locator and command-builder logic of the
vscode-jest-runner extension (src/jestRunner.ts) against its
specification.  The block tree and the locator `findFullTestName` are
modelled from the spec (the util/parser modules are not part of the
sources); the argument builder `buildJestArgs` and the test-name
resolution of `findCurrentTestName` are embedded from src/jestRunner.ts.
-/

/-- Modelled from the spec: a Block is a node representing a describe/test/it
call, with a name, a 1-based start line, an end line and an ordered list of
children (spec section 3, DATA MODEL).  The parser module that produces these
blocks is not among the sources. -/
structure Block where
  name : String
  startLine : Nat
  endLine : Nat
  children : List Block
deriving Repr

/-- Modelled from the spec: the membership test of a line in a block range,
inclusive on both ends (spec: if line falls within [start, end]). -/
def inRange (line : Nat) (b : Block) : Bool :=
  b.startLine ≤ line && line ≤ b.endLine

/-- Modelled from the spec: the locator findFullTestName (util module is not
among the sources; spec section 4.1).  Depth-first search: for each block in
order, if the line falls within [start, end], recurse into its children; if no
child matches, the block itself is the match.  The result is the space-joined
chain of names from outermost matched ancestor to innermost matched block, or
an absent result when no block contains the line. -/
def findFullTestName (line : Nat) : List Block → Option String
  | [] => none
  | b :: rest =>
    if inRange line b then
      match findFullTestName line b.children with
      | some sub => some (b.name ++ " " ++ sub)
      | none => some b.name
    else
      findFullTestName line rest
termination_by l => sizeOf l
decreasing_by
  all_goals simp_wf
  all_goals first
    | omega
    | (obtain ⟨n, s, e, c⟩ := b
       simp
       omega)

/-- Containment of a block's children in its own range, one level deep
(spec invariant: child ranges are fully contained in the parent's range). -/
def childrenWithin (b : Block) : Bool :=
  b.children.all fun c => b.startLine ≤ c.startLine && c.endLine ≤ b.endLine

/-- Disjointness of the ranges of two blocks (spec invariant: sibling ranges
never overlap). -/
def rangesDisjoint (b b2 : Block) : Bool :=
  b.endLine < b2.startLine || b2.endLine < b.startLine

/-- Well-formedness of a block forest, following the spec's data-model
invariants: every block's children lie within its range, and siblings at
every level have pairwise disjoint ranges. -/
def wf : List Block → Bool
  | [] => true
  | b :: rest =>
      childrenWithin b && wf b.children && rest.all (rangesDisjoint b) && wf rest
termination_by l => sizeOf l
decreasing_by
  all_goals simp_wf
  all_goals first
    | omega
    | (obtain ⟨n, s, e, c⟩ := b
       simp
       omega)

/-- Chains of nested blocks: IsBlockChain blocks path holds when path is a
nonempty list whose head is one of the given blocks and in which each
element is a child of its predecessor. -/
def IsBlockChain : List Block → List Block → Prop
  | _, [] => False
  | blocks, [b] => b ∈ blocks
  | blocks, b :: c :: rest => b ∈ blocks ∧ IsBlockChain b.children (c :: rest)

/-- Fully-qualified name of a chain of blocks: the space-joined chain of the
block names, from outermost to innermost. -/
def fullName : List Block → String
  | [] => ""
  | [b] => b.name
  | b :: c :: rest => b.name ++ " " ++ fullName (c :: rest)

/-- Every block of a forest, collected recursively. -/
def allBlocks : List Block → List Block
  | [] => []
  | b :: rest => b :: (allBlocks b.children ++ allBlocks rest)
termination_by l => sizeOf l
decreasing_by
  all_goals simp_wf
  all_goals first
    | omega
    | (obtain ⟨n, s, e, c⟩ := b
       simp
       omega)

theorem findFullTestName_nil (line : Nat) : findFullTestName line [] = none := by
  simp [findFullTestName]

theorem findFullTestName_cons (line : Nat) (b : Block) (rest : List Block) :
    findFullTestName line (b :: rest) =
      if inRange line b then
        match findFullTestName line b.children with
        | some sub => some (b.name ++ " " ++ sub)
        | none => some b.name
      else
        findFullTestName line rest := by
  rw [findFullTestName]

theorem wf_cons (b : Block) (rest : List Block) :
    wf (b :: rest) =
      (childrenWithin b && wf b.children && rest.all (rangesDisjoint b) && wf rest) := by
  rw [wf]

theorem wf_cons_iff (b : Block) (rest : List Block) :
    wf (b :: rest) = true ↔
      childrenWithin b = true ∧ wf b.children = true ∧
        (∀ b2 ∈ rest, rangesDisjoint b b2 = true) ∧ wf rest = true := by
  rw [wf_cons]
  simp [List.all_eq_true, Bool.and_eq_true, and_assoc]

theorem wf_mem {blocks : List Block} {b : Block}
    (hwf : wf blocks = true) (hmem : b ∈ blocks) :
    childrenWithin b = true ∧ wf b.children = true := by
  induction blocks with
  | nil => cases hmem
  | cons a rest ih =>
    rw [wf_cons_iff] at hwf
    rcases List.mem_cons.mp hmem with h | h
    · subst h
      exact ⟨hwf.1, hwf.2.1⟩
    · exact ih hwf.2.2.2 h

theorem inRange_false_of_disjoint {line : Nat} {a b : Block}
    (hd : rangesDisjoint a b = true) (hb : inRange line b = true) :
    inRange line a = false := by
  simp only [rangesDisjoint, inRange, Bool.or_eq_true, Bool.and_eq_true,
    decide_eq_true_eq] at hd hb ⊢
  simp only [Bool.and_eq_false_iff, decide_eq_false_iff_not, not_le]
  omega

theorem findFullTestName_none {line : Nat} {blocks : List Block}
    (h : ∀ b ∈ blocks, inRange line b = false) :
    findFullTestName line blocks = none := by
  induction blocks with
  | nil => exact findFullTestName_nil line
  | cons b rest ih =>
    rw [findFullTestName_cons, h b (List.mem_cons_self b rest)]
    exact ih fun b2 hb2 => h b2 (List.mem_cons_of_mem b hb2)

theorem findFullTestName_mem {line : Nat} {blocks : List Block} {b : Block}
    (hwf : wf blocks = true) (hmem : b ∈ blocks) (hin : inRange line b = true) :
    findFullTestName line blocks =
      match findFullTestName line b.children with
      | some sub => some (b.name ++ " " ++ sub)
      | none => some b.name := by
  induction blocks with
  | nil => cases hmem
  | cons a rest ih =>
    rw [wf_cons_iff] at hwf
    rcases List.mem_cons.mp hmem with h | h
    · subst h
      rw [findFullTestName_cons, if_pos hin]
    · have hnotin : inRange line a = false :=
        inRange_false_of_disjoint (hwf.2.2.1 b h) hin
      rw [findFullTestName_cons, hnotin]
      exact ih hwf.2.2.2 h

theorem isBlockChain_head_mem {blocks : List Block} {c : Block} {rest : List Block}
    (h : IsBlockChain blocks (c :: rest)) : c ∈ blocks := by
  cases rest with
  | nil => exact h
  | cons d rest2 => exact h.1

theorem inRange_of_contained {line : Nat} {a c : Block}
    (hw : childrenWithin a = true) (hc : c ∈ a.children)
    (hin : inRange line c = true) : inRange line a = true := by
  simp only [childrenWithin, List.all_eq_true, Bool.and_eq_true,
    decide_eq_true_eq] at hw
  have h2 := hw c hc
  simp only [inRange, Bool.and_eq_true, decide_eq_true_eq] at hin ⊢
  omega

theorem chain_inRange {line : Nat} :
    ∀ {path blocks : List Block} {b : Block}, wf blocks = true →
      IsBlockChain blocks path → path.getLast? = some b →
      inRange line b = true → ∀ p ∈ path, inRange line p = true
  | [], _, _, _, hchain, _, _ => by cases hchain
  | [a], blocks, b, hwf, hchain, hlast, hin => by
    simp only [List.getLast?_singleton, Option.some.injEq] at hlast
    subst hlast
    intro p hp
    simp only [List.mem_singleton] at hp
    subst hp
    exact hin
  | a :: c :: rest, blocks, b, hwf, hchain, hlast, hin => by
    obtain ⟨hmem, hchain2⟩ := hchain
    obtain ⟨hcw, hwfc⟩ := wf_mem hwf hmem
    rw [List.getLast?_cons_cons] at hlast
    have ih := chain_inRange hwfc hchain2 hlast hin
    intro p hp
    rcases List.mem_cons.mp hp with h | h
    · subst h
      exact inRange_of_contained hcw (isBlockChain_head_mem hchain2)
        (ih c (List.mem_cons_self c rest))
    · exact ih p h

theorem findFullTestName_chain {line : Nat} :
    ∀ {path blocks : List Block} {b : Block}, wf blocks = true →
      IsBlockChain blocks path → path.getLast? = some b →
      inRange line b = true →
      findFullTestName line blocks =
        match findFullTestName line b.children with
        | some sub => some (fullName path ++ " " ++ sub)
        | none => some (fullName path)
  | [], _, _, _, hchain, _, _ => by cases hchain
  | [a], blocks, b, hwf, hchain, hlast, hin => by
    simp only [List.getLast?_singleton, Option.some.injEq] at hlast
    subst hlast
    rw [findFullTestName_mem hwf hchain hin]
    rfl
  | a :: c :: rest, blocks, b, hwf, hchain, hlast, hin => by
    have hina : inRange line a = true :=
      chain_inRange hwf hchain hlast hin a (List.mem_cons_self a (c :: rest))
    obtain ⟨hmem, hchain2⟩ := hchain
    obtain ⟨hcw, hwfc⟩ := wf_mem hwf hmem
    rw [List.getLast?_cons_cons] at hlast
    rw [findFullTestName_mem hwf hmem hina]
    rw [findFullTestName_chain hwfc hchain2 hlast hin]
    cases findFullTestName line b.children with
    | none => rfl
    | some sub =>
      show some (a.name ++ " " ++ (fullName (c :: rest) ++ " " ++ sub)) = _
      rw [fullName]
      simp [String.append_assoc]

theorem isBlockChain_cons_cons (blocks : List Block) (a c : Block) (rest : List Block) :
    IsBlockChain blocks (a :: c :: rest) ↔
      a ∈ blocks ∧ IsBlockChain a.children (c :: rest) := Iff.rfl

theorem isBlockChain_singleton (blocks : List Block) (a : Block) :
    IsBlockChain blocks [a] ↔ a ∈ blocks := Iff.rfl

theorem fullName_concat (C : Block) :
    ∀ {path : List Block}, path ≠ [] →
      fullName (path ++ [C]) = fullName path ++ " " ++ C.name
  | [], h => absurd rfl h
  | [a], _ => rfl
  | a :: c :: rest, _ => by
    show fullName (a :: c :: (rest ++ [C])) = _
    rw [fullName]
    rw [show c :: (rest ++ [C]) = (c :: rest) ++ [C] from rfl]
    rw [fullName_concat C (by simp), fullName]
    simp [String.append_assoc]

theorem fullName_getLast :
    ∀ {path : List Block} {B : Block}, path.getLast? = some B →
      ∃ x : String, fullName path = x ++ B.name
  | [], _, h => by cases h
  | [a], B, h => by
    simp only [List.getLast?_singleton, Option.some.injEq] at h
    subst h
    exact ⟨"", by simp [fullName]⟩
  | a :: c :: rest, B, h => by
    rw [List.getLast?_cons_cons] at h
    obtain ⟨x0, hx⟩ := fullName_getLast h
    refine ⟨a.name ++ " " ++ x0, ?_⟩
    rw [fullName, hx]
    simp [String.append_assoc]

theorem chain_concat {C : Block} :
    ∀ {path blocks : List Block} {B : Block}, IsBlockChain blocks path →
      path.getLast? = some B → C ∈ B.children →
      IsBlockChain blocks (path ++ [C])
  | [], _, _, hchain, _, _ => by cases hchain
  | [a], blocks, B, hchain, hlast, hC => by
    simp only [List.getLast?_singleton, Option.some.injEq] at hlast
    subst hlast
    rw [show ([a] : List Block) ++ [C] = a :: C :: [] from rfl, isBlockChain_cons_cons]
    exact ⟨hchain, by rw [isBlockChain_singleton]; exact hC⟩
  | a :: c :: rest, blocks, B, hchain, hlast, hC => by
    rw [List.getLast?_cons_cons] at hlast
    rw [isBlockChain_cons_cons] at hchain
    rw [show (a :: c :: rest) ++ [C] = a :: ((c :: rest) ++ [C]) from rfl]
    rw [show (c :: rest) ++ [C] = c :: (rest ++ [C]) from rfl, isBlockChain_cons_cons]
    rw [show c :: (rest ++ [C]) = (c :: rest) ++ [C] from rfl]
    exact ⟨hchain.1, chain_concat hchain.2 hlast hC⟩

theorem allBlocks_cons (b : Block) (rest : List Block) :
    allBlocks (b :: rest) = b :: (allBlocks b.children ++ allBlocks rest) := by
  rw [allBlocks]

theorem mem_allBlocks {blocks : List Block} {b : Block} (h : b ∈ blocks) :
    b ∈ allBlocks blocks := by
  induction blocks with
  | nil => cases h
  | cons a rest ih =>
    rw [allBlocks_cons]
    rcases List.mem_cons.mp h with h2 | h2
    · exact h2 ▸ List.mem_cons_self a _
    · exact List.mem_cons_of_mem a (List.mem_append_right _ (ih h2))

/-- Concrete example block from the spec: test("bar") spanning lines 3 to 5. -/
def barBlock : Block := ⟨"bar", 3, 5, []⟩

/-- Concrete example block from the spec: describe("Foo") spanning lines 1 to
10, containing barBlock. -/
def fooBlock : Block := ⟨"Foo", 1, 10, [barBlock]⟩

/-- Concrete example forest from the spec example in section 8. -/
def fooTree : List Block := [fooBlock]

/-- C1: for every line number inside a block's line range [start, end] and
outside the range of any of that block's children, findFullTestName returns
exactly that block's fully-qualified name: the deepest matching block wins,
and a block with no matching child is itself the match. -/
theorem claim1_innermost_match {line : Nat} {blocks path : List Block} {b : Block}
    (hwf : wf blocks = true) (hchain : IsBlockChain blocks path)
    (hlast : path.getLast? = some b) (hin : inRange line b = true)
    (hchild : ∀ c ∈ b.children, inRange line c = false) :
    findFullTestName line blocks = some (fullName path) := by
  rw [findFullTestName_chain hwf hchain hlast hin, findFullTestName_none hchild]

/-- Witness for C1 at the spec's concrete example, line 8. -/
theorem claim1_innermost_match_witness :
    wf fooTree = true ∧ IsBlockChain fooTree [fooBlock] ∧
      [fooBlock].getLast? = some fooBlock ∧ inRange 8 fooBlock = true ∧
      (∀ c ∈ fooBlock.children, inRange 8 c = false) ∧
      findFullTestName 8 fooTree = some (fullName [fooBlock]) :=
  ⟨by simp [wf, fooTree, fooBlock, barBlock, childrenWithin, rangesDisjoint],
   by rw [isBlockChain_singleton]; simp [fooTree],
   by simp,
   by simp [inRange, fooBlock],
   by simp [fooBlock, barBlock, inRange],
   @claim1_innermost_match 8 fooTree [fooBlock] fooBlock
     (by simp [wf, fooTree, fooBlock, barBlock, childrenWithin, rangesDisjoint])
     (by rw [isBlockChain_singleton]; simp [fooTree])
     (by simp)
     (by simp [inRange, fooBlock])
     (by simp [fooBlock, barBlock, inRange])⟩

/-- C2: for every block B containing a child block C whose range contains the
line, the returned fully-qualified name includes both names, in outer-to-inner
order, joined by a single space: the result is the space-joined chain from the
outermost matched ancestor to the innermost matched block. -/
theorem claim2_nested_names {line : Nat} {blocks path : List Block} {B C : Block}
    (hwf : wf blocks = true) (hchain : IsBlockChain blocks path)
    (hlast : path.getLast? = some B) (hC : C ∈ B.children)
    (hin : inRange line C = true) :
    ∃ x y : String,
      findFullTestName line blocks = some (x ++ B.name ++ " " ++ C.name ++ y) := by
  have hchain2 : IsBlockChain blocks (path ++ [C]) := chain_concat hchain hlast hC
  have hlast2 : (path ++ [C]).getLast? = some C := by simp
  have heval := findFullTestName_chain hwf hchain2 hlast2 hin
  obtain ⟨x0, hx⟩ := fullName_getLast hlast
  have hpne : path ≠ [] := by
    rintro rfl
    cases hchain
  have hfull : fullName (path ++ [C]) = x0 ++ B.name ++ " " ++ C.name := by
    rw [fullName_concat C hpne, hx]
  rw [heval]
  cases hsub : findFullTestName line C.children with
  | none =>
    refine ⟨x0, "", ?_⟩
    rw [hfull]
    simp [String.append_assoc]
  | some sub =>
    refine ⟨x0, " " ++ sub, ?_⟩
    rw [hfull]
    simp [String.append_assoc]

/-- Witness for C2 at the spec's concrete example, line 4. -/
theorem claim2_nested_names_witness :
    wf fooTree = true ∧ IsBlockChain fooTree [fooBlock] ∧
      [fooBlock].getLast? = some fooBlock ∧ barBlock ∈ fooBlock.children ∧
      inRange 4 barBlock = true ∧
      (∃ x y : String,
        findFullTestName 4 fooTree = some (x ++ "Foo" ++ " " ++ "bar" ++ y)) :=
  ⟨by simp [wf, fooTree, fooBlock, barBlock, childrenWithin, rangesDisjoint],
   by rw [isBlockChain_singleton]; simp [fooTree],
   by simp,
   by simp [fooBlock],
   by simp [inRange, barBlock],
   @claim2_nested_names 4 fooTree [fooBlock] fooBlock barBlock
     (by simp [wf, fooTree, fooBlock, barBlock, childrenWithin, rangesDisjoint])
     (by rw [isBlockChain_singleton]; simp [fooTree])
     (by simp)
     (by simp [fooBlock])
     (by simp [inRange, barBlock])⟩

/-- C3: for every line number not contained in the range of any block of the
forest, findFullTestName returns the absent result none: no match is a valid
outcome, not an error, and the caller then falls back to running the whole
file. -/
theorem claim3_no_enclosing_block {line : Nat} {blocks : List Block}
    (h : ∀ b ∈ allBlocks blocks, inRange line b = false) :
    findFullTestName line blocks = none :=
  findFullTestName_none fun b hb => h b (mem_allBlocks hb)

/-- Witness for C3 at the spec's concrete example, line 12. -/
theorem claim3_no_enclosing_block_witness :
    (∀ b ∈ allBlocks fooTree, inRange 12 b = false) ∧
      findFullTestName 12 fooTree = none :=
  ⟨by simp [allBlocks, fooTree, fooBlock, barBlock, inRange],
   @claim3_no_enclosing_block 12 fooTree
     (by simp [allBlocks, fooTree, fooBlock, barBlock, inRange])⟩

/-- C4: on the concrete tree with describe("Foo") spanning [1,10] containing
test("bar") spanning [3,5], the locator returns "Foo bar" at line 4, "Foo" at
line 8 and no match at line 12. -/
theorem claim4_concrete_example :
    findFullTestName 4 fooTree = some "Foo bar" ∧
      findFullTestName 8 fooTree = some "Foo" ∧
      findFullTestName 12 fooTree = none := by
  refine ⟨?_, ?_, ?_⟩ <;>
    simp [findFullTestName, fooTree, fooBlock, barBlock, inRange]

/-- C5: the locator is a deterministic pure function of the line number and
the block forest: two calls on identical inputs yield identical outputs. -/
theorem claim5_deterministic : ∀ (line : Nat) (blocks : List Block),
    findFullTestName line blocks = findFullTestName line blocks :=
  fun _ _ => rfl

/-- Modelled from the spec: the result of the parser (the parser module is not
among the sources).  A parse tree is rooted at a synthetic root block owning
all top-level blocks; only the root's children reach the locator. -/
structure ParseResult where
  rootChildren : List Block

/-- Modelled from the spec: for a malformed or unparseable source file the
parser yields an empty tree instead of raising, so that the caller degrades
gracefully (spec section 7, parse failure). -/
def parseMalformed : ParseResult := ⟨[]⟩

/-- C8: on the empty tree produced for a malformed or unparseable source file,
the locator totally evaluates to the absent result none for every line, never
propagating a failure to the caller. -/
theorem claim8_parse_failure_degrades : ∀ line : Nat,
    findFullTestName line parseMalformed.rootChildren = none :=
  fun line => findFullTestName_nil line

/-- Test for a regular-expression metacharacter, the set escaped by the
standard escapeRegExp helper. -/
def isRegExpSpecial (c : Char) : Bool :=
  c = '.' || c = '*' || c = '+' || c = '?' || c = '^' || c = '$' ||
  c = '\x7b' || c = '\x7d' || c = '(' || c = ')' || c = '|' ||
  c = '[' || c = ']' || c = '\\'

/-- Character-list worker of escapeRegExp: a backslash is put before every
regex metacharacter. -/
def escapeRegExpChars : List Char → List Char
  | [] => []
  | c :: rest =>
    if isRegExpSpecial c then '\\' :: c :: escapeRegExpChars rest
    else c :: escapeRegExpChars rest

/-- Modelled from the spec: escapeRegExp of the util module (not among the
sources); the located name is regex-escaped before being used as a test
filter (spec section 6). -/
def escapeRegExp (s : String) : String :=
  String.mk (escapeRegExpChars s.data)

/-- Modelled from the spec: escapeRegExpForPath of the util module (not among
the sources), the regex escaping applied to the file path pushed first by
buildJestArgs. -/
def escapeRegExpForPath (s : String) : String :=
  String.mk (escapeRegExpChars s.data)

/-- Modelled from the spec: normalizePath of the util module (not among the
sources); backslash separators are normalized to forward slashes. -/
def normalizePath (s : String) : String :=
  String.mk (s.data.map fun c => if c = '\\' then '/' else c)

/-- Character code 39, the single-quote character. -/
def singleQuoteChar : Char := Char.ofNat 39

/-- Modelled from the spec: escapeSingleQuotes of the util module (not among
the sources); a backslash is put before every single quote. -/
def escapeSingleQuotes (s : String) : String :=
  String.mk (s.data.foldr
    (fun c acc => if c = singleQuoteChar then '\\' :: c :: acc else c :: acc) [])

/-- Modelled from the spec: quote of the util module (not among the sources);
the value is wrapped in quotation marks. -/
def quote (s : String) : String := "\"" ++ s ++ "\""

/-- Embedded from src/jestRunner.ts line 250: the quoter is quote when
withQuotes is set and the identity otherwise. -/
def quoterOf (withQuotes : Bool) : String → String :=
  if withQuotes then quote else id

/-- Worker for the template-literal placeholder: drops characters up to and
including the first closing brace. -/
def dropThroughBrace : List Char → List Char
  | [] => []
  | c :: rest => if c = '\x7d' then rest else dropThroughBrace rest

theorem dropThroughBrace_length_le :
    ∀ l : List Char, (dropThroughBrace l).length ≤ l.length
  | [] => Nat.le_refl 0
  | c :: rest => by
    rw [dropThroughBrace]
    split
    · simp
    · exact Nat.le_succ_of_le (dropThroughBrace_length_le rest)

/-- Test for a printf-style format specifier letter of the property
placeholders of the test runner. -/
def isFormatSpecifier (c : Char) : Bool :=
  c = 's' || c = 'd' || c = 'i' || c = 'f' || c = 'j' || c = 'o' ||
  c = 'p' || c = '#'

/-- Character-list worker of updateTestNameIfUsingProperties: a
percent-specifier pair or a template-literal placeholder is replaced by the
regex wildcard, all other characters pass through. -/
def normalizePlaceholders : List Char → List Char
  | [] => []
  | [c] => [c]
  | c1 :: c2 :: rest =>
    if c1 = '%' && isFormatSpecifier c2 then
      '.' :: '*' :: normalizePlaceholders rest
    else if c1 = '$' && c2 = '\x7b' then
      '.' :: '*' :: normalizePlaceholders (dropThroughBrace rest)
    else
      c1 :: normalizePlaceholders (c2 :: rest)
termination_by l => l.length
decreasing_by
  all_goals simp
  all_goals first
    | omega
    | (have hlen := dropThroughBrace_length_le rest
       omega)

/-- Modelled from the spec: updateTestNameIfUsingProperties of the util module
(not among the sources); property-style interpolation placeholders such as the
percent specifiers and template literals are rewritten into regex wildcards
(spec section 4.1, edge cases). -/
def updateTestNameIfUsingProperties (s : String) : String :=
  String.mk (normalizePlaceholders s.data)

/-- Pattern token of the regular-expression fragment produced by the
placeholder normalization: a literal character or the dot-star wildcard. -/
inductive PatTok where
  | lit : Char → PatTok
  | wild : PatTok

/-- Lexer for the produced patterns: dot-star becomes the wildcard token, a
backslash escapes the following character, everything else is literal. -/
def lexPattern : List Char → List PatTok
  | [] => []
  | [c] => [PatTok.lit c]
  | c1 :: c2 :: rest =>
    if c1 = '.' && c2 = '*' then PatTok.wild :: lexPattern rest
    else if c1 = '\\' then PatTok.lit c2 :: lexPattern rest
    else PatTok.lit c1 :: lexPattern (c2 :: rest)
termination_by l => l.length
decreasing_by
  all_goals simp
  all_goals omega

/-- Matching semantics of the produced patterns: a literal token consumes its
own character and the wildcard consumes any number of characters. -/
def toksMatch : List PatTok → List Char → Bool
  | [], s => s.isEmpty
  | PatTok.lit _ :: _, [] => false
  | PatTok.lit c :: ts, d :: s => c = d && toksMatch ts s
  | PatTok.wild :: ts, [] => toksMatch ts []
  | PatTok.wild :: ts, d :: s => toksMatch ts (d :: s) || toksMatch (PatTok.wild :: ts) s
termination_by ts s => (ts.length, s.length)

/-- Full-string regex matching for the pattern fragment produced by the
placeholder normalization. -/
def regexMatches (pattern str : String) : Bool :=
  toksMatch (lexPattern pattern.data) str.data

theorem toksMatch_wild_final : ∀ s : List Char, toksMatch [PatTok.wild] s = true
  | [] => by rw [toksMatch, toksMatch]; rfl
  | d :: s => by
    rw [toksMatch, toksMatch_wild_final s]
    simp

/-- Plain name characters: neither a regex metacharacter nor the percent
sign, so they pass unchanged through the placeholder normalization and lex
as literal tokens. -/
def isPlainChar (c : Char) : Bool :=
  !isRegExpSpecial c && !(c = '%')

theorem isPlainChar_ne {p : Char} (hp : isPlainChar p = true) :
    p ≠ '.' ∧ p ≠ '*' ∧ p ≠ '\\' ∧ p ≠ '%' ∧ p ≠ '$' := by
  simp only [isPlainChar, isRegExpSpecial, Bool.and_eq_true, Bool.not_eq_true',
    Bool.or_eq_false_iff, decide_eq_false_iff_not] at hp
  tauto

theorem normalizePlaceholders_cons_plain {p : Char} (hp : isPlainChar p = true)
    (c2 : Char) (rest : List Char) :
    normalizePlaceholders (p :: c2 :: rest) = p :: normalizePlaceholders (c2 :: rest) := by
  obtain ⟨-, -, -, h4, h5⟩ := isPlainChar_ne hp
  rw [normalizePlaceholders]
  simp [h4, h5]

theorem lexPattern_cons_plain {p : Char} (hp : isPlainChar p = true)
    (c2 : Char) (rest : List Char) :
    lexPattern (p :: c2 :: rest) = PatTok.lit p :: lexPattern (c2 :: rest) := by
  obtain ⟨h1, -, h3, -, -⟩ := isPlainChar_ne hp
  rw [lexPattern]
  simp [h1, h3]

theorem normalizePlaceholders_plain :
    ∀ (l : List Char), l.all isPlainChar = true → normalizePlaceholders l = l
  | [], _ => by rw [normalizePlaceholders]
  | [c], _ => by rw [normalizePlaceholders]
  | c1 :: c2 :: rest, h => by
    simp only [List.all_cons, Bool.and_eq_true] at h
    rw [normalizePlaceholders_cons_plain h.1,
      normalizePlaceholders_plain (c2 :: rest) (by simp [List.all_cons, h.2.1, h.2.2])]

theorem lexPattern_plain :
    ∀ (l : List Char), l.all isPlainChar = true → lexPattern l = l.map PatTok.lit
  | [], _ => by rw [lexPattern]; rfl
  | [c], _ => by rw [lexPattern]; rfl
  | c1 :: c2 :: rest, h => by
    simp only [List.all_cons, Bool.and_eq_true] at h
    rw [lexPattern_cons_plain h.1,
      lexPattern_plain (c2 :: rest) (by simp [List.all_cons, h.2.1, h.2.2])]
    rfl

theorem normalizePlaceholders_percent :
    ∀ (pre : List Char), pre.all isPlainChar = true → ∀ (c : Char),
      isFormatSpecifier c = true → ∀ (suf : List Char),
      normalizePlaceholders (pre ++ '%' :: c :: suf) =
        pre ++ '.' :: '*' :: normalizePlaceholders suf
  | [], _, c, hc, suf => by
    rw [List.nil_append, List.nil_append, normalizePlaceholders]
    simp [hc]
  | p :: pre2, hp, c, hc, suf => by
    simp only [List.all_cons, Bool.and_eq_true] at hp
    cases pre2 with
    | nil =>
      simp only [List.cons_append, List.nil_append]
      rw [normalizePlaceholders_cons_plain hp.1]
      have hbase := normalizePlaceholders_percent [] rfl c hc suf
      simp only [List.nil_append] at hbase
      rw [hbase]
    | cons q pre3 =>
      simp only [List.cons_append]
      rw [normalizePlaceholders_cons_plain hp.1]
      have ih := normalizePlaceholders_percent (q :: pre3) hp.2 c hc suf
      simp only [List.cons_append] at ih
      rw [ih]

theorem dropThroughBrace_append :
    ∀ (inner : List Char), inner.all (fun d => !(d = '\x7d')) = true →
      ∀ (suf : List Char), dropThroughBrace (inner ++ '\x7d' :: suf) = suf
  | [], _, suf => by
    rw [List.nil_append, dropThroughBrace]
    simp
  | d :: inner2, h, suf => by
    simp only [List.all_cons, Bool.and_eq_true, Bool.not_eq_true',
      decide_eq_false_iff_not] at h
    simp only [List.cons_append]
    rw [dropThroughBrace]
    simp [h.1, dropThroughBrace_append inner2 (by simp [List.all_eq_true, h.2]) suf]

theorem normalizePlaceholders_template :
    ∀ (pre : List Char), pre.all isPlainChar = true → ∀ (inner : List Char),
      inner.all (fun d => !(d = '\x7d')) = true → ∀ (suf : List Char),
      normalizePlaceholders (pre ++ '$' :: '\x7b' :: (inner ++ '\x7d' :: suf)) =
        pre ++ '.' :: '*' :: normalizePlaceholders suf
  | [], _, inner, hinner, suf => by
    rw [List.nil_append, List.nil_append, normalizePlaceholders]
    simp [dropThroughBrace_append inner hinner suf]
  | p :: pre2, hp, inner, hinner, suf => by
    simp only [List.all_cons, Bool.and_eq_true] at hp
    cases pre2 with
    | nil =>
      simp only [List.cons_append, List.nil_append]
      rw [normalizePlaceholders_cons_plain hp.1]
      have hbase := normalizePlaceholders_template [] rfl inner hinner suf
      simp only [List.nil_append] at hbase
      rw [hbase]
    | cons q pre3 =>
      simp only [List.cons_append]
      rw [normalizePlaceholders_cons_plain hp.1]
      have ih := normalizePlaceholders_template (q :: pre3) hp.2 inner hinner suf
      simp only [List.cons_append] at ih
      rw [ih]

theorem lexPattern_wild :
    ∀ (pre : List Char), pre.all isPlainChar = true → ∀ (suf : List Char),
      lexPattern (pre ++ '.' :: '*' :: suf) =
        pre.map PatTok.lit ++ PatTok.wild :: lexPattern suf
  | [], _, suf => by
    rw [List.nil_append, lexPattern]
    simp
  | p :: pre2, hp, suf => by
    simp only [List.all_cons, Bool.and_eq_true] at hp
    cases pre2 with
    | nil =>
      simp only [List.cons_append, List.nil_append]
      rw [lexPattern_cons_plain hp.1]
      have hbase := lexPattern_wild [] rfl suf
      simp only [List.nil_append] at hbase
      rw [hbase]
      rfl
    | cons q pre3 =>
      simp only [List.cons_append]
      rw [lexPattern_cons_plain hp.1]
      have ih := lexPattern_wild (q :: pre3) hp.2 suf
      simp only [List.cons_append] at ih
      rw [ih]
      rfl

theorem toksMatch_lit_run :
    ∀ (l : List Char) (ts : List PatTok) (s : List Char),
      toksMatch (l.map PatTok.lit ++ ts) (l ++ s) = toksMatch ts s
  | [], ts, s => by simp
  | c :: l2, ts, s => by
    simp only [List.map_cons, List.cons_append]
    rw [toksMatch]
    simp [toksMatch_lit_run l2 ts s]

theorem toksMatch_wild_skip :
    ∀ (v : List Char) (ts : List PatTok) (s : List Char), toksMatch ts s = true →
      toksMatch (PatTok.wild :: ts) (v ++ s) = true
  | [], ts, s, h => by
    cases s with
    | nil =>
      rw [List.nil_append, toksMatch]
      exact h
    | cons d s2 =>
      rw [List.nil_append, toksMatch]
      simp [h]
  | c :: v2, ts, s, h => by
    simp only [List.cons_append]
    rw [toksMatch]
    simp [toksMatch_wild_skip v2 ts s h]

theorem toksMatch_lits_self (l : List Char) : toksMatch (l.map PatTok.lit) l = true := by
  have h := toksMatch_lit_run l [] []
  simp only [List.append_nil] at h
  rw [h, toksMatch]
  rfl

theorem toksMatch_pattern_all {pre suf : List Char}
    (hpre : pre.all isPlainChar = true) (hsuf : suf.all isPlainChar = true)
    (v : List Char) :
    toksMatch (lexPattern (pre ++ '.' :: '*' :: suf)) (pre ++ (v ++ suf)) = true := by
  rw [lexPattern_wild pre hpre suf, lexPattern_plain suf hsuf]
  rw [toksMatch_lit_run pre (PatTok.wild :: suf.map PatTok.lit) (v ++ suf)]
  exact toksMatch_wild_skip v (suf.map PatTok.lit) suf (toksMatch_lits_self suf)

/-- C7: for every test name made of a placeholder-free plain prefix and
suffix around a property-style interpolation placeholder, of the percent kind
or the template-literal kind, the normalization produces a regex-safe pattern
matching the name with any value substituted for the placeholder; in
particular "returns %s" normalizes to a pattern matching "returns ok" as well
as every other substituted value. -/
theorem claim7_placeholder_wildcard (pre suf inner : List Char) (c : Char)
    (v : String)
    (hpre : pre.all isPlainChar = true) (hsuf : suf.all isPlainChar = true)
    (hc : isFormatSpecifier c = true)
    (hinner : inner.all (fun d => !(d = '\x7d')) = true) :
    regexMatches
        (updateTestNameIfUsingProperties (String.mk (pre ++ '%' :: c :: suf)))
        (String.mk (pre ++ (v.data ++ suf))) = true ∧
    regexMatches
        (updateTestNameIfUsingProperties
          (String.mk (pre ++ '$' :: '\x7b' :: (inner ++ '\x7d' :: suf))))
        (String.mk (pre ++ (v.data ++ suf))) = true ∧
    updateTestNameIfUsingProperties "returns %s" = "returns .*" ∧
    regexMatches (updateTestNameIfUsingProperties "returns %s") "returns ok" = true := by
  have hplain := normalizePlaceholders_plain suf hsuf
  refine ⟨?_, ?_, ?_, ?_⟩
  · show toksMatch
      (lexPattern (normalizePlaceholders (pre ++ '%' :: c :: suf)))
      (pre ++ (v.data ++ suf)) = true
    rw [normalizePlaceholders_percent pre hpre c hc suf, hplain]
    exact toksMatch_pattern_all hpre hsuf v.data
  · show toksMatch
      (lexPattern (normalizePlaceholders
        (pre ++ '$' :: '\x7b' :: (inner ++ '\x7d' :: suf))))
      (pre ++ (v.data ++ suf)) = true
    rw [normalizePlaceholders_template pre hpre inner hinner suf, hplain]
    exact toksMatch_pattern_all hpre hsuf v.data
  · simp [updateTestNameIfUsingProperties, normalizePlaceholders, isFormatSpecifier]
  · have hupd : updateTestNameIfUsingProperties "returns %s" = "returns .*" := by
      simp [updateTestNameIfUsingProperties, normalizePlaceholders, isFormatSpecifier]
    rw [hupd]
    have h := @toksMatch_pattern_all "returns ".data []
      (by decide) (by decide) "ok".data
    simp only [List.append_nil] at h
    exact h

/-- Witness for C7 at the prefix "returns " with the percent placeholder s
and the value ok. -/
theorem claim7_placeholder_wildcard_witness :
    ("returns ".data.all isPlainChar = true) ∧
    (([] : List Char).all isPlainChar = true) ∧
    (isFormatSpecifier 's' = true) ∧
    (['o', 'k'].all (fun d => !(d = '\x7d')) = true) ∧
    (regexMatches
        (updateTestNameIfUsingProperties
          (String.mk ("returns ".data ++ '%' :: 's' :: [])))
        (String.mk ("returns ".data ++ ("ok".data ++ []))) = true ∧
     regexMatches
        (updateTestNameIfUsingProperties
          (String.mk ("returns ".data ++ '$' :: '\x7b' :: (['o', 'k'] ++ '\x7d' :: []))))
        (String.mk ("returns ".data ++ ("ok".data ++ []))) = true ∧
     updateTestNameIfUsingProperties "returns %s" = "returns .*" ∧
     regexMatches (updateTestNameIfUsingProperties "returns %s") "returns ok" = true) :=
  ⟨by decide, by decide, by decide, by decide,
   claim7_placeholder_wildcard "returns ".data [] ['o', 'k'] 's' "ok"
     (by decide) (by decide) (by decide) (by decide)⟩

/-- Configuration collaborator of the runner (JestRunnerConfig; its module is
external to src/jestRunner.ts).  Only the members read by buildJestArgs are
modelled: the jest config path lookup, whose falsy absent value is the empty
string, and the optional configured run options. -/
structure RunnerConfig where
  jestConfigPathFor : String → String
  runOptions : Option (List String)

/-- Insertion into the insertion-ordered set model: the element is appended
unless already present, as a JavaScript Set does. -/
def insertUnique (l : List String) (x : String) : List String :=
  if x ∈ l then l else l ++ [x]

/-- Folding a whole list into the insertion-ordered set model. -/
def dedupAdd (init : List String) (xs : List String) : List String :=
  xs.foldl insertUnique init

/-- Embedded from src/jestRunner.ts lines 271-277: the options segment is a
Set seeded with the caller-supplied options into which each configured run
option is added, then spread onto the argument list. -/
def optionsSegment (options : List String) (runOptions : Option (List String)) :
    List String :=
  match runOptions with
  | some ro => dedupAdd (dedupAdd [] options) ro
  | none => dedupAdd [] options

/-- Embedded from src/jestRunner.ts lines 248-280 (buildJestArgs): the file
path is pushed first, normalized, path-regex-escaped and quoted per
withQuotes; a truthy jest config path adds the pair -c path; a truthy test
name adds the pair -t name with single quotes escaped; a truthy workspace
path adds the pair --roots path; finally the deduplicated options follow. -/
def buildJestArgs (cfg : RunnerConfig) (workspacePath filePath testName : String)
    (withQuotes : Bool) (options : List String) : List String :=
  (((([quoterOf withQuotes (escapeRegExpForPath (normalizePath filePath))]
    ++ (if cfg.jestConfigPathFor filePath ≠ "" then
          ["-c", quoterOf withQuotes (normalizePath (cfg.jestConfigPathFor filePath))]
        else []))
    ++ (if testName ≠ "" then
          ["-t", quoterOf withQuotes (escapeSingleQuotes testName)]
        else []))
    ++ (if workspacePath ≠ "" then
          ["--roots", quoterOf withQuotes (escapeSingleQuotes workspacePath)]
        else []))
    ++ optionsSegment options cfg.runOptions)

/-- Embedded from src/jestRunner.ts lines 228-241 (findCurrentTestName), in
the empty-selection case: the locator result for the cursor line is
regex-escaped when truthy and absent otherwise. -/
def findCurrentTestName (line : Nat) (blocks : List Block) : Option String :=
  match findFullTestName line blocks with
  | some full => if full = "" then none else some (escapeRegExp full)
  | none => none

/-- Embedded from src/jestRunner.ts lines 91-93 and 243-246: the test name
located for the cursor is normalized by updateTestNameIfUsingProperties and
handed to buildJestArgs with quoting enabled; an absent name is the falsy
undefined, modelled by the empty string that buildJestArgs skips. -/
def runCurrentTestArgs (cfg : RunnerConfig) (workspacePath filePath : String)
    (line : Nat) (blocks : List Block) (options : List String) : List String :=
  match findCurrentTestName line blocks with
  | some tn =>
    buildJestArgs cfg workspacePath filePath
      (updateTestNameIfUsingProperties tn) true options
  | none => buildJestArgs cfg workspacePath filePath "" true options

theorem mem_insertUnique {l : List String} {x y : String} :
    y ∈ insertUnique l x ↔ y ∈ l ∨ y = x := by
  rw [insertUnique]
  split
  · rename_i h
    constructor
    · exact Or.inl
    · rintro (h2 | h2)
      · exact h2
      · exact h2 ▸ h
  · simp

theorem mem_dedupAdd {y : String} :
    ∀ {xs init : List String}, y ∈ dedupAdd init xs ↔ y ∈ init ∨ y ∈ xs
  | [], init => by simp [dedupAdd]
  | x :: xs, init => by
    rw [show dedupAdd init (x :: xs) = dedupAdd (insertUnique init x) xs from rfl]
    rw [mem_dedupAdd, mem_insertUnique]
    simp [or_assoc, List.mem_cons]

theorem nodup_insertUnique {l : List String} {x : String} (h : l.Nodup) :
    (insertUnique l x).Nodup := by
  rw [insertUnique]
  split
  · exact h
  · rename_i h2
    simp [List.nodup_append, h, h2]

theorem nodup_dedupAdd :
    ∀ {xs init : List String}, init.Nodup → (dedupAdd init xs).Nodup
  | [], init, h => h
  | x :: xs, init, h => by
    rw [show dedupAdd init (x :: xs) = dedupAdd (insertUnique init x) xs from rfl]
    exact nodup_dedupAdd (nodup_insertUnique h)

theorem nodup_optionsSegment (options : List String) (runOptions : Option (List String)) :
    (optionsSegment options runOptions).Nodup := by
  cases runOptions with
  | none => exact nodup_dedupAdd List.nodup_nil
  | some ro => exact nodup_dedupAdd (nodup_dedupAdd List.nodup_nil)

theorem mem_optionsSegment {options : List String} {runOptions : Option (List String)}
    {y : String} :
    y ∈ optionsSegment options runOptions ↔
      y ∈ options ∨ y ∈ runOptions.getD [] := by
  cases runOptions with
  | none => simp [optionsSegment, mem_dedupAdd]
  | some ro => simp [optionsSegment, mem_dedupAdd, or_assoc]

theorem buildJestArgs_t_pair {cfg : RunnerConfig} {wp fp tn : String} {wq : Bool}
    {opts : List String} (h : tn ≠ "") :
    ∃ i : Nat, (buildJestArgs cfg wp fp tn wq opts)[i]? = some "-t" ∧
      (buildJestArgs cfg wp fp tn wq opts)[i+1]? =
        some (quoterOf wq (escapeSingleQuotes tn)) := by
  by_cases hc : cfg.jestConfigPathFor fp = ""
  · refine ⟨1, ?_, ?_⟩ <;> simp [buildJestArgs, hc, h]
  · refine ⟨3, ?_, ?_⟩ <;> simp [buildJestArgs, hc, h]

/-- C9: the first element of the argument list built by buildJestArgs is the
normalized, path-regex-escaped file path, quoted when withQuotes is set; and
the list contains the flag -t immediately followed by the single-quote-escaped
test name, quoted the same way, exactly when the test name is a non-empty
string.  The collision hypotheses rule out the flag string itself occurring as
a path, workspace or option value. -/
theorem claim9_buildJestArgs_shape (cfg : RunnerConfig) (wp fp tn : String)
    (wq : Bool) (opts : List String)
    (h1 : "-t" ∉ opts)
    (h2 : "-t" ∉ cfg.runOptions.getD [])
    (h3 : quoterOf wq (escapeRegExpForPath (normalizePath fp)) ≠ "-t")
    (h4 : quoterOf wq (normalizePath (cfg.jestConfigPathFor fp)) ≠ "-t")
    (h5 : quoterOf wq (escapeSingleQuotes wp) ≠ "-t") :
    (buildJestArgs cfg wp fp tn wq opts).head? =
      some (quoterOf wq (escapeRegExpForPath (normalizePath fp))) ∧
    ((∃ i : Nat, (buildJestArgs cfg wp fp tn wq opts)[i]? = some "-t" ∧
        (buildJestArgs cfg wp fp tn wq opts)[i+1]? =
          some (quoterOf wq (escapeSingleQuotes tn))) ↔ tn ≠ "") := by
  constructor
  · simp [buildJestArgs]
  · constructor
    · rintro ⟨i, hi, hi2⟩ htn
      subst htn
      have hmem : "-t" ∈ buildJestArgs cfg wp fp "" wq opts := List.getElem?_mem hi
      rw [buildJestArgs] at hmem
      simp only [ne_eq, not_true_eq_false, if_false, List.append_nil,
        List.mem_append, List.mem_singleton, mem_optionsSegment] at hmem
      rcases hmem with ((hm | hm) | hm) | hm | hm
      · exact h3 hm.symm
      · split at hm
        · simp only [List.mem_cons, List.mem_singleton] at hm
          rcases hm with hm | hm | hm
          · exact absurd hm (by decide)
          · exact h4 hm.symm
          · cases hm
        · cases hm
      · split at hm
        · simp only [List.mem_cons, List.mem_singleton] at hm
          rcases hm with hm | hm | hm
          · exact absurd hm (by decide)
          · exact h5 hm.symm
          · cases hm
        · cases hm
      · exact h1 hm
      · exact h2 hm
    · exact fun h => buildJestArgs_t_pair h

/-- Witness for C9 at a concrete configuration and unquoted arguments. -/
theorem claim9_buildJestArgs_shape_witness :
    ("-t" ∉ (["--ci"] : List String)) ∧
    ("-t" ∉ (Option.getD (some ["--watch"]) [] : List String)) ∧
    (quoterOf false (escapeRegExpForPath (normalizePath "a.test.ts")) ≠ "-t") ∧
    (quoterOf false (normalizePath ((fun _ => "jest.config.js") ("a.test.ts" : String))) ≠ "-t") ∧
    (quoterOf false (escapeSingleQuotes "ws") ≠ "-t") ∧
    ((buildJestArgs ⟨fun _ => "jest.config.js", some ["--watch"]⟩ "ws" "a.test.ts"
        "nm" false ["--ci"]).head? =
      some (quoterOf false (escapeRegExpForPath (normalizePath "a.test.ts"))) ∧
    ((∃ i : Nat,
        (buildJestArgs ⟨fun _ => "jest.config.js", some ["--watch"]⟩ "ws" "a.test.ts"
          "nm" false ["--ci"])[i]? = some "-t" ∧
        (buildJestArgs ⟨fun _ => "jest.config.js", some ["--watch"]⟩ "ws" "a.test.ts"
          "nm" false ["--ci"])[i+1]? =
          some (quoterOf false (escapeSingleQuotes "nm"))) ↔ ("nm" : String) ≠ "")) :=
  ⟨by decide, by decide, by decide, by decide, by decide,
   claim9_buildJestArgs_shape ⟨fun _ => "jest.config.js", some ["--watch"]⟩
     "ws" "a.test.ts" "nm" false ["--ci"]
     (by decide) (by decide) (by decide) (by decide) (by decide)⟩

/-- C10: the options segment at the tail of the list built by buildJestArgs
contains each distinct option string at most once, because the options are
accumulated through a Set; it is the merge of the caller-supplied options with
the configured run options. -/
theorem claim10_options_dedup (cfg : RunnerConfig) (wp fp tn : String)
    (wq : Bool) (opts : List String) :
    ∃ pre : List String,
      buildJestArgs cfg wp fp tn wq opts = pre ++ optionsSegment opts cfg.runOptions ∧
      (optionsSegment opts cfg.runOptions).Nodup ∧
      ∀ x : String, x ∈ optionsSegment opts cfg.runOptions ↔
        x ∈ opts ∨ x ∈ cfg.runOptions.getD [] :=
  ⟨_, rfl, nodup_optionsSegment opts cfg.runOptions, fun _ => mem_optionsSegment⟩

theorem mk_cons_ne_empty (c : Char) (l : List Char) : String.mk (c :: l) ≠ "" := by
  intro h
  have h2 : (String.mk (c :: l)).data = ("" : String).data := congrArg String.data h
  simp at h2

theorem escapeRegExp_ne_empty {s : String} (h : s ≠ "") : escapeRegExp s ≠ "" := by
  obtain ⟨data⟩ := s
  cases data with
  | nil => exact absurd rfl h
  | cons c rest =>
    show String.mk (escapeRegExpChars (c :: rest)) ≠ ""
    rw [escapeRegExpChars]
    split
    · exact mk_cons_ne_empty _ _
    · exact mk_cons_ne_empty _ _

theorem normalizePlaceholders_ne_nil (c : Char) (l : List Char) :
    normalizePlaceholders (c :: l) ≠ [] := by
  cases l with
  | nil =>
    rw [normalizePlaceholders]
    simp
  | cons c2 rest =>
    rw [normalizePlaceholders]
    split
    · simp
    · split <;> simp

theorem updateTestName_ne_empty {s : String} (h : s ≠ "") :
    updateTestNameIfUsingProperties s ≠ "" := by
  obtain ⟨data⟩ := s
  cases data with
  | nil => exact absurd rfl h
  | cons c rest =>
    show String.mk (normalizePlaceholders (c :: rest)) ≠ ""
    intro heq
    have h2 : normalizePlaceholders (c :: rest) = [] := by
      have h3 := congrArg String.data heq
      simpa using h3
    exact normalizePlaceholders_ne_nil c rest h2

/-- C6: whenever the locator finds a fully-qualified test name for the cursor
line, the value embedded immediately after the -t test-filter flag of the
generated command line is derived from the regex-escaped name: the escaping of
findCurrentTestName is applied before the placeholder normalization, the
single-quote escaping and the quoting of the command builder. -/
theorem claim6_name_regex_escaped {cfg : RunnerConfig} {wp fp : String}
    {line : Nat} {blocks : List Block} {opts : List String} {n : String}
    (hfind : findFullTestName line blocks = some n) (hne : n ≠ "") :
    ∃ i : Nat,
      (runCurrentTestArgs cfg wp fp line blocks opts)[i]? = some "-t" ∧
      (runCurrentTestArgs cfg wp fp line blocks opts)[i+1]? =
        some (quoterOf true (escapeSingleQuotes
          (updateTestNameIfUsingProperties (escapeRegExp n)))) := by
  have hcur : findCurrentTestName line blocks = some (escapeRegExp n) := by
    simp [findCurrentTestName, hfind, hne]
  have hargs : runCurrentTestArgs cfg wp fp line blocks opts =
      buildJestArgs cfg wp fp
        (updateTestNameIfUsingProperties (escapeRegExp n)) true opts := by
    rw [runCurrentTestArgs, hcur]
  rw [hargs]
  exact buildJestArgs_t_pair (updateTestName_ne_empty (escapeRegExp_ne_empty hne))

/-- Witness for C6 at the spec's concrete example, line 4 of the Foo tree. -/
theorem claim6_name_regex_escaped_witness :
    findFullTestName 4 fooTree = some "Foo bar" ∧ ("Foo bar" : String) ≠ "" ∧
    (∃ i : Nat,
      (runCurrentTestArgs ⟨fun _ => "", none⟩ "ws" "f.test.ts" 4 fooTree [])[i]? =
        some "-t" ∧
      (runCurrentTestArgs ⟨fun _ => "", none⟩ "ws" "f.test.ts" 4 fooTree [])[i+1]? =
        some (quoterOf true (escapeSingleQuotes
          (updateTestNameIfUsingProperties (escapeRegExp "Foo bar"))))) :=
  ⟨by simp [findFullTestName, fooTree, fooBlock, barBlock, inRange],
   by decide,
   @claim6_name_regex_escaped ⟨fun _ => "", none⟩ "ws" "f.test.ts" 4 fooTree [] "Foo bar"
     (by simp [findFullTestName, fooTree, fooBlock, barBlock, inRange])
     (by decide)⟩

/-- C9 fails as universally stated: when the caller-supplied options array
itself contains the flag -t followed by a string equal to the escaped empty
test name, the built list contains the pair even though testName is empty, so
the only-if direction of the claimed equivalence is violated. -/
theorem claim9_unrestricted_counterexample :
    ¬((∃ i : Nat,
        (buildJestArgs ⟨fun _ => "", none⟩ "" "f" "" false ["-t", ""])[i]? =
          some "-t" ∧
        (buildJestArgs ⟨fun _ => "", none⟩ "" "f" "" false ["-t", ""])[i+1]? =
          some (quoterOf false (escapeSingleQuotes ""))) ↔ ("" : String) ≠ "") := by
  intro h
  exact h.mp ⟨1, by decide, by decide⟩ rfl
